import Mathlib

/-!
Verification of the expression subsystem of `gruph` (`src/main.rs`).

The development shallowly embeds, from the source:
* the AST type `Expr` with its evaluator `Expr.eval` and variable collector
  `Expr.extend_bindings`;
* the `syn`-based expression parser (`impl syn::parse::Parse for Expr`,
  `Expr::parse_with_unop`, `Expr::parse_binop`), over a token-tree type
  mirroring the proc-macro2 token stream for the character set the
  expressions use;
* the connection store of the external `egui_snarl` library at its interface
  (`connect`, `disconnect`, `drop_inputs`, the `remotes` of an input pin);
* the text-edit/reconciliation path of `DemoViewer::show_input`
  (the `changed` branch, lines 184-240) as `applyTextEdit`;
* the wire-validation logic of `DemoViewer::connect` (lines 96-117) as
  `viewerConnect`.

`f64` values are modelled as `ℚ`: every arithmetic computation appearing in
the claims (small integer sums/products, divisions by powers of two, halves)
is exact in IEEE-754 double precision, so the rational model agrees with the
source on all of them.  Rust panics (`unwrap`, out-of-bounds indexing,
`unreachable!`) are modelled as `Option`/`none` results.
-/

/-- `enum UnOp { Pos, Neg }` from the source. -/
inductive UnOp where
  | pos
  | neg
deriving DecidableEq

/-- `enum BinOp { Add, Sub, Mul, Div }` from the source. -/
inductive BinOp where
  | add
  | sub
  | mul
  | div
deriving DecidableEq

/-- `enum Expr { Var(String), Val(f64), UnOp { op, expr }, BinOp { lhs, op, rhs } }`
from the source, with `f64` modelled as `ℚ`. -/
inductive Expr where
  | Var (name : String)
  | Val (value : ℚ)
  | UnOp (op : UnOp) (expr : Expr)
  | BinOp (lhs : Expr) (op : BinOp) (rhs : Expr)
deriving DecidableEq

/-- `Iterator::position(|binding| binding == name)` on a list of strings:
the index of the first element equal to `p`, if any. -/
def listPosition (p : String) : List String → Option ℕ
  | [] => none
  | b :: bs => if b = p then some 0 else (listPosition p bs).map (· + 1)

/-- `Expr::eval(&self, bindings, args)` from the source.  The source looks up
`bindings.iter().position(..).unwrap()` and indexes `args` with the result;
both panics are modelled as `none`. -/
def Expr.eval : Expr → List String → List ℚ → Option ℚ
  | Expr.Var name, bindings, args =>
    match listPosition name bindings with
    | none => none
    | some i => args.get? i
  | Expr.Val v, _, _ => some v
  | Expr.UnOp op e, bindings, args =>
    match op with
    | UnOp.pos => e.eval bindings args
    | UnOp.neg => (e.eval bindings args).map (fun q => -q)
  | Expr.BinOp l op r, bindings, args =>
    match l.eval bindings args, r.eval bindings args with
    | some a, some b =>
      match op with
      | BinOp.add => some (a + b)
      | BinOp.sub => some (a - b)
      | BinOp.mul => some (a * b)
      | BinOp.div => some (a / b)
    | _, _ => none

/-- `Expr::extend_bindings(&self, bindings: &mut Vec<String>)` from the source,
with the mutable vector passed as an accumulator. -/
def Expr.extend_bindings : Expr → List String → List String
  | Expr.Var name, bs => if name ∈ bs then bs else bs ++ [name]
  | Expr.Val _, bs => bs
  | Expr.UnOp _ e, bs => e.extend_bindings bs
  | Expr.BinOp l _ r, bs => r.extend_bindings (l.extend_bindings bs)

/-- Token trees of the proc-macro2 stream that `syn::parse_str` parses,
restricted to the tokens the expression grammar uses: integer and float
literals, identifiers, the four operator punctuation marks, and
parenthesis groups (proc-macro2 nests parenthesised content into a group). -/
inductive Tok where
  | litInt (n : ℕ)
  | litFloat (q : ℚ)
  | ident (s : String)
  | plus
  | minus
  | star
  | slash
  | paren (ts : List Tok)

/-- Numeric value of a run of decimal digit characters. -/
def digitsVal (ds : List Char) : ℕ :=
  ds.foldl (fun a c => 10 * a + (c.toNat - 48)) 0

/-- Character class of identifier continuation characters. -/
def isIdentChar (c : Char) : Bool := c.isAlphanum || c = '_'

/-- Tokenizer for the proc-macro2 subset above, fuel-indexed.  Returns the
tokens read together with the unread remainder (which begins with `')'` when
the recursion stops at a group boundary).  An unbalanced `'('` is a lex
error (`none`), as in proc-macro2. -/
def tokenizeAux : ℕ → List Char → Option (List Tok × List Char)
  | 0, _ => none
  | _ + 1, [] => some ([], [])
  | fuel + 1, c :: cs =>
    if c = ' ' ∨ c = '\t' ∨ c = '\n' then
      tokenizeAux fuel cs
    else if c = '+' then
      (tokenizeAux fuel cs).map (fun r => (Tok.plus :: r.1, r.2))
    else if c = '-' then
      (tokenizeAux fuel cs).map (fun r => (Tok.minus :: r.1, r.2))
    else if c = '*' then
      (tokenizeAux fuel cs).map (fun r => (Tok.star :: r.1, r.2))
    else if c = '/' then
      (tokenizeAux fuel cs).map (fun r => (Tok.slash :: r.1, r.2))
    else if c = '(' then
      match tokenizeAux fuel cs with
      | some (inner, ')' :: rest) =>
        (tokenizeAux fuel rest).map (fun r => (Tok.paren inner :: r.1, r.2))
      | _ => none
    else if c = ')' then
      some ([], c :: cs)
    else if c.isDigit then
      let ds := (c :: cs).takeWhile Char.isDigit
      let rest := (c :: cs).dropWhile Char.isDigit
      match rest with
      | '.' :: rest2 =>
        let fs := rest2.takeWhile Char.isDigit
        let rest3 := rest2.dropWhile Char.isDigit
        let q : ℚ := (digitsVal ds : ℚ) + (digitsVal fs : ℚ) / ((10 : ℚ) ^ fs.length)
        (tokenizeAux fuel rest3).map (fun r => (Tok.litFloat q :: r.1, r.2))
      | _ =>
        (tokenizeAux fuel rest).map (fun r => (Tok.litInt (digitsVal ds) :: r.1, r.2))
    else if c.isAlpha ∨ c = '_' then
      let nm := (c :: cs).takeWhile isIdentChar
      let rest := (c :: cs).dropWhile isIdentChar
      (tokenizeAux fuel rest).map (fun r => (Tok.ident (String.mk nm) :: r.1, r.2))
    else
      none

/-- Tokenize a whole string.  A remainder (a `')'` with no opening partner)
is a lex error, as in proc-macro2. -/
def tokenize (s : String) : Option (List Tok) :=
  match tokenizeAux (s.toList.length + 1) s.toList with
  | some (ts, []) => some ts
  | _ => none

/-- `impl syn::parse::Parse for UnOp`: a `+` or `-` token. -/
def parseUnOpTok : List Tok → Option (UnOp × List Tok)
  | Tok.plus :: r => some (UnOp.pos, r)
  | Tok.minus :: r => some (UnOp.neg, r)
  | _ => none

/-- `impl syn::parse::Parse for BinOp`: a `+`, `-`, `*` or `/` token. -/
def parseBinOpTok : List Tok → Option (BinOp × List Tok)
  | Tok.plus :: r => some (BinOp.add, r)
  | Tok.minus :: r => some (BinOp.sub, r)
  | Tok.star :: r => some (BinOp.mul, r)
  | Tok.slash :: r => some (BinOp.div, r)
  | _ => none

mutual

/-- `impl syn::parse::Parse for Expr` from the source, fuel-indexed.  Every
`Ok` return in the source happens with the (current-group) stream empty, so
the function returns a bare `Expr` that consumes its whole token list.
Branch order mirrors the source: parenthesis group, integer literal,
identifier, otherwise a unary operator.  The source's `LitFloat` branch at
this position is commented out in `main.rs` (lines 629-636), so a leading
float literal falls through to the `UnOp` parse, which rejects it. -/
def parseExprF : ℕ → List Tok → Option Expr
  | 0, _ => none
  | fuel + 1, Tok.paren content :: rest =>
    match parseExprF fuel content with
    | none => none
    | some e =>
      if rest.isEmpty then some e
      else
        match parseBinOpTok rest with
        | none => none
        | some (op, r) => parseBinopF fuel e op r
  | fuel + 1, Tok.litInt n :: rest =>
    if rest.isEmpty then some (Expr.Val n)
    else
      match parseBinOpTok rest with
      | none => none
      | some (op, r) => parseBinopF fuel (Expr.Val n) op r
  | fuel + 1, Tok.ident s :: rest =>
    if rest.isEmpty then some (Expr.Var s)
    else
      match parseBinOpTok rest with
      | none => none
      | some (op, r) => parseBinopF fuel (Expr.Var s) op r
  | fuel + 1, ts =>
    match parseUnOpTok ts with
    | none => none
    | some (op, rest) => parseWithUnopF fuel op rest

/-- `Expr::parse_with_unop` from the source, fuel-indexed.  Branch order:
parenthesis group, float literal, integer literal, identifier. -/
def parseWithUnopF : ℕ → UnOp → List Tok → Option Expr
  | 0, _, _ => none
  | fuel + 1, op, Tok.paren content :: rest =>
    match parseExprF fuel content with
    | none => none
    | some inner =>
      let e := Expr.UnOp op inner
      if rest.isEmpty then some e
      else
        match parseBinOpTok rest with
        | none => none
        | some (bop, r) => parseBinopF fuel e bop r
  | fuel + 1, op, Tok.litFloat q :: rest =>
    let e := Expr.UnOp op (Expr.Val q)
    if rest.isEmpty then some e
    else
      match parseBinOpTok rest with
      | none => none
      | some (bop, r) => parseBinopF fuel e bop r
  | fuel + 1, op, Tok.litInt n :: rest =>
    let e := Expr.UnOp op (Expr.Val n)
    if rest.isEmpty then some e
    else
      match parseBinOpTok rest with
      | none => none
      | some (bop, r) => parseBinopF fuel e bop r
  | fuel + 1, op, Tok.ident s :: rest =>
    let e := Expr.UnOp op (Expr.Var s)
    if rest.isEmpty then some e
    else
      match parseBinOpTok rest with
      | none => none
      | some (bop, r) => parseBinopF fuel e bop r
  | _ + 1, _, _ => none

/-- `Expr::parse_binop` from the source, fuel-indexed.  Parses one primary as
`rhs`; if input remains it parses the next operator and either recurses into
the right-hand side (additive operator followed by multiplicative) or folds
to the left and continues. -/
def parseBinopF : ℕ → Expr → BinOp → List Tok → Option Expr
  | 0, _, _, _ => none
  | fuel + 1, lhs, op, ts =>
    let rhsRest : Option (Expr × List Tok) :=
      match ts with
      | Tok.paren content :: rest =>
        match parseExprF fuel content with
        | none => none
        | some e => some (e, rest)
      | Tok.litFloat q :: rest => some (Expr.Val q, rest)
      | Tok.litInt n :: rest => some (Expr.Val n, rest)
      | Tok.ident s :: rest => some (Expr.Var s, rest)
      | _ => none
    match rhsRest with
    | none => none
    | some (rhs, rest) =>
      if rest.isEmpty then some (Expr.BinOp lhs op rhs)
      else
        match parseBinOpTok rest with
        | none => none
        | some (next_op, rest2) =>
          match op, next_op with
          | BinOp.add, BinOp.mul =>
            (parseBinopF fuel rhs next_op rest2).map (Expr.BinOp lhs op)
          | BinOp.add, BinOp.div =>
            (parseBinopF fuel rhs next_op rest2).map (Expr.BinOp lhs op)
          | BinOp.sub, BinOp.mul =>
            (parseBinopF fuel rhs next_op rest2).map (Expr.BinOp lhs op)
          | BinOp.sub, BinOp.div =>
            (parseBinopF fuel rhs next_op rest2).map (Expr.BinOp lhs op)
          | _, _ =>
            parseBinopF fuel (Expr.BinOp lhs op rhs) next_op rest2

end

/-- `syn::parse_str::<Expr>` as called by `show_input`: tokenize, then parse.
Every recursive parser call consumes at least one token, and every token
(counting those nested in groups) comes from at least one character of the
input, so `s.toList.length + 1` steps of fuel always suffice.  The
repository inspects the result only through `if let Ok(..)`, discarding the
error value built by the external `syn` library, so the failure case is
modelled as `none`. -/
def parseText (s : String) : Option Expr :=
  (tokenize s).bind (fun ts => parseExprF (s.toList.length + 1) ts)

/-- Parse a string and evaluate the result with no variables bound. -/
def evalText (s : String) : Option ℚ :=
  (parseText s).bind (fun e => e.eval [] [])

/-- Output pin identity `(node, output index)`, mirroring
`egui_snarl::OutPinId` with node ids as naturals. -/
abbrev OutPinId := ℕ × ℕ

/-- Input pin identity `(node, input index)`, mirroring `egui_snarl::InPinId`. -/
abbrev InPinId := ℕ × ℕ

/-- A wire of the `egui_snarl` store: an output pin feeding an input pin. -/
abbrev Wire := OutPinId × InPinId

/-- The connection store of the external `egui_snarl` graph, modelled at its
interface as the list of current wires (the library keeps a set; the list
holds no duplicates along the reachable operations, and all statements below
are insensitive to duplication). -/
abbrev ConnState := List Wire

/-- The remote output pins currently feeding input pin `i`
(`snarl.in_pin(i).remotes`). -/
def remotes (i : InPinId) : ConnState → List OutPinId
  | [] => []
  | w :: cs => if w.2 = i then w.1 :: remotes i cs else remotes i cs

/-- `snarl.connect(o, i)`: insert the wire if it is not present. -/
def connectW (o : OutPinId) (i : InPinId) (cs : ConnState) : ConnState :=
  if (o, i) ∈ cs then cs else cs ++ [(o, i)]

/-- `snarl.disconnect(o, i)`: remove the wire. -/
def disconnectW (o : OutPinId) (i : InPinId) : ConnState → ConnState
  | [] => []
  | w :: cs => if w = (o, i) then disconnectW o i cs else w :: disconnectW o i cs

/-- `snarl.drop_inputs(i)`: remove every wire feeding input pin `i`. -/
def dropInputsW (i : InPinId) : ConnState → ConnState
  | [] => []
  | w :: cs => if w.2 = i then dropInputsW i cs else w :: dropInputsW i cs

/-- A connection command issued to the external store, recorded so that
"zero commands are issued" is a statement about the trace, not only about
the resulting state. -/
inductive Cmd where
  | dropAll (i : InPinId)
  | disc (o : OutPinId) (i : InPinId)
  | conn (o : OutPinId) (i : InPinId)
deriving DecidableEq

/-- `struct ExprNode { text, bindings, values, expr }` from the source. -/
structure ExprNode where
  text : String
  bindings : List String
  values : List ℚ
  expr : Expr
deriving DecidableEq

/-- `ExprNode::eval`: evaluate the compiled expression against the node's
current bindings and values. -/
def ExprNode.eval (en : ExprNode) : Option ℚ :=
  en.expr.eval en.bindings en.values

/-- Lookup in the `HashMap<String, f64>` that `show_input` collects from
`zip(bindings, values)`.  A `HashMap` built from an iterator inserts the
pairs in order, so a later pair with the same key overrides an earlier one:
the lookup takes the last matching pair. -/
def hashMapLookup : List (String × ℚ) → String → Option ℚ
  | [], _ => none
  | (k, v) :: rest, name =>
    match hashMapLookup rest name with
    | some w => some w
    | none => if k = name then some v else none

/-- The `new_values` computation of `show_input` (lines 202-205):
`values.get(name).copied().unwrap_or(0.0)` over the new binding list, with
the map built from the old `(bindings, values)` pair. -/
def newValues (old_b : List String) (old_v : List ℚ) (nb : List String) : List ℚ :=
  nb.map (fun name => (hashMapLookup (old_b.zip old_v) name).getD 0)

/-- The connection-migration loop of `show_input` (lines 209-238).  `cs0` is
the state from which `old_inputs` (and hence each slot's `remotes`) was
materialised before the loop; `cs` is the store being mutated; `idx` is the
position inside `old_bindings`.  The old slot of binding `idx` is input
`idx + 1`; the destination pin is built as `InPinId { input: new_idx }` in
the source — without the `+ 1` the old-slot computation uses. -/
def migrate (node : ℕ) : List String → ℕ → List String → ConnState → ConnState →
    ConnState × List Cmd
  | [], _, _, _, cs => (cs, [])
  | name :: rest, idx, nb, cs0, cs =>
    match listPosition name nb with
    | none =>
      let cs1 := dropInputsW (node, idx + 1) cs
      let r := migrate node rest (idx + 1) nb cs0 cs1
      (r.1, Cmd.dropAll (node, idx + 1) :: r.2)
    | some nidx =>
      if nidx = idx then
        migrate node rest (idx + 1) nb cs0 cs
      else
        let rs := remotes (node, idx + 1) cs0
        let cs1 := rs.foldl
          (fun c rm => connectW rm (node, nidx) (disconnectW rm (node, idx + 1) c)) cs
        let cmds1 := rs.foldr
          (fun rm acc => Cmd.disc rm (node, idx + 1) :: Cmd.conn rm (node, nidx) :: acc) []
        let r := migrate node rest (idx + 1) nb cs0 cs1
        (r.1, cmds1 ++ r.2)

/-- The text-edit path of `show_input` (lines 184-240), for the node holding
`en`.  The widget has already written the new text into the node; then, only
if the text parses, the node's expression, bindings and values are
recomputed and the migration loop runs against the snapshot of the old
state.  On a parse failure nothing but the text changes and no command is
issued.  Returns the new node state, the new connection store, and the trace
of commands issued to the store. -/
def applyTextEdit (node : ℕ) (en : ExprNode) (cs : ConnState) (t : String) :
    ExprNode × ConnState × List Cmd :=
  match parseText t with
  | none => ({ en with text := t }, cs, [])
  | some e =>
    let nb := e.extend_bindings []
    let nv := newValues en.bindings en.values nb
    let r := migrate node en.bindings 0 nb cs cs
    ({ text := t, bindings := nb, values := nv, expr := e }, r.1, r.2)

/-- Node kinds of the graph: `Node::Named(String)` and
`Node::ExprNode(ExprNode)` from the source. -/
inductive NodeK where
  | named (s : String)
  | exprN (en : ExprNode)

/-- `DemoViewer::connect` (lines 96-117): validate the pin kinds, and on a
valid pair disconnect every remote currently feeding the destination before
inserting the new wire.  The `(_, Named)` arm is `unreachable!` in the
source (a `Named` node has zero inputs, so the UI can produce no such
destination pin); the panic is modelled as `none`. -/
def viewerConnect (fromNode toNode : NodeK) (fromId : OutPinId) (toId : InPinId)
    (cs : ConnState) : Option ConnState :=
  match fromNode, toNode with
  | _, NodeK.named _ => none
  | NodeK.exprN _, NodeK.exprN _ =>
    if toId.2 = 0 then some cs
    else some (connectW fromId toId
      ((remotes toId cs).foldl (fun c rm => disconnectW rm toId c) cs))
  | NodeK.named _, NodeK.exprN _ =>
    if toId.2 = 0 then
      some (connectW fromId toId
        ((remotes toId cs).foldl (fun c rm => disconnectW rm toId c) cs))
    else some cs

/-- Spec-side definition, following the words of the specification: the
`Var` names of the tree in pre-order, left-before-right for binary nodes,
inner expression for unary nodes, repeats included. -/
def varList : Expr → List String
  | Expr.Var name => [name]
  | Expr.Val _ => []
  | Expr.UnOp _ e => varList e
  | Expr.BinOp l _ r => varList l ++ varList r

/-- Spec-side definition: collect each name the first time it is seen,
skipping repeats (order-preserving deduplication). -/
def firstOccur (l : List String) : List String :=
  l.foldl (fun acc n => if n ∈ acc then acc else acc ++ [n]) []

/-- Spec-side definition: the name-to-value lookup "built from the old
`(bindings, values)` snapshot" — the value paired with the first occurrence
of the name. -/
def assocFirst : List (String × ℚ) → String → Option ℚ
  | [], _ => none
  | (k, v) :: rest, name => if k = name then some v else assocFirst rest name

/-- Modelled from the spec: the four parse-error kinds the specification
requires the text-edit operation to surface (`EmptyInput`, `UnexpectedToken`,
`UnclosedParen`, `TrailingInput`).  No such type exists in the source; the
type is needed to state the claim about it. -/
inductive ParseErrorKind where
  | emptyInput
  | unexpectedToken
  | unclosedParen
  | trailingInput
deriving DecidableEq

theorem extend_bindings_eq_foldl (e : Expr) (acc : List String) :
    e.extend_bindings acc =
      (varList e).foldl (fun a n => if n ∈ a then a else a ++ [n]) acc := by
  induction e generalizing acc with
  | Var n => simp [Expr.extend_bindings, varList]
  | Val v => simp [Expr.extend_bindings, varList]
  | UnOp op e ih => simp [Expr.extend_bindings, varList, ih]
  | BinOp l op r ihl ihr =>
    simp [Expr.extend_bindings, varList, ihl, ihr, List.foldl_append]

theorem nodup_foldl_firstOccur (l : List String) :
    ∀ acc : List String, acc.Nodup →
      (l.foldl (fun a n => if n ∈ a then a else a ++ [n]) acc).Nodup := by
  induction l with
  | nil => intro acc h; simpa using h
  | cons n l ih =>
    intro acc h
    by_cases hn : n ∈ acc
    · simpa [hn] using ih acc h
    · refine ?_
      have h2 : (acc ++ [n]).Nodup := by
        simp [List.nodup_append, h, hn]
      simpa [hn] using ih (acc ++ [n]) h2

theorem nodup_extend_bindings (e : Expr) : (e.extend_bindings []).Nodup := by
  rw [extend_bindings_eq_foldl]
  exact nodup_foldl_firstOccur (varList e) [] List.nodup_nil

theorem hashMapLookup_eq_none_of_not_mem :
    ∀ (ps : List (String × ℚ)) (k : String),
      k ∉ ps.map Prod.fst → hashMapLookup ps k = none := by
  intro ps
  induction ps with
  | nil => intro k _; rfl
  | cons p ps ih =>
    intro k hk
    obtain ⟨a, v⟩ := p
    have h1 : k ∉ ps.map Prod.fst := fun h => hk (by simp [h])
    have h2 : a ≠ k := fun h => hk (by simp [h])
    simp [hashMapLookup, ih k h1, h2]

theorem mem_keys_of_hashMapLookup_some (ps : List (String × ℚ)) (k : String)
    (w : ℚ) (h : hashMapLookup ps k = some w) : k ∈ ps.map Prod.fst := by
  by_contra hk
  rw [hashMapLookup_eq_none_of_not_mem ps k hk] at h
  exact Option.noConfusion h

theorem hashMapLookup_eq_assocFirst (ps : List (String × ℚ))
    (h : (ps.map Prod.fst).Nodup) (k : String) :
    hashMapLookup ps k = assocFirst ps k := by
  induction ps with
  | nil => rfl
  | cons p ps ih =>
    obtain ⟨a, v⟩ := p
    rw [List.map_cons] at h
    have hnd : (ps.map Prod.fst).Nodup := (List.nodup_cons.mp h).2
    have hna : a ∉ ps.map Prod.fst := (List.nodup_cons.mp h).1
    cases hl : hashMapLookup ps k with
    | none =>
      by_cases hak : a = k
      · simp [hashMapLookup, hl, assocFirst, hak]
      · simp [hashMapLookup, hl, assocFirst, hak, ← ih hnd, hl]
    | some w =>
      have hk : k ∈ ps.map Prod.fst := mem_keys_of_hashMapLookup_some ps k w hl
      have hak : a ≠ k := fun hh => hna (hh ▸ hk)
      simp [hashMapLookup, hl, assocFirst, hak, ← ih hnd, hl]

theorem listMapCongr {α β : Type} (l : List α) (f g : α → β)
    (h : ∀ a ∈ l, f a = g a) : l.map f = l.map g := by
  induction l with
  | nil => rfl
  | cons a l ih =>
    simp only [List.map_cons]
    rw [h a (by simp), ih (fun b hb => h b (by simp [hb]))]

theorem mem_of_mem_keys_zip (bs : List String) (vs : List ℚ) (k : String)
    (h : k ∈ (bs.zip vs).map Prod.fst) : k ∈ bs := by
  obtain ⟨⟨a, c⟩, hmem, rfl⟩ := List.mem_map.mp h
  exact (List.of_mem_zip hmem).1

theorem newValues_self (bs : List String) (vs : List ℚ) (hnd : bs.Nodup)
    (hlen : bs.length = vs.length) : newValues bs vs bs = vs := by
  induction bs generalizing vs with
  | nil =>
    cases vs with
    | nil => rfl
    | cons v vs => simp at hlen
  | cons b bs ih =>
    cases vs with
    | nil => simp at hlen
    | cons v vs =>
      have hb : b ∉ bs := (List.nodup_cons.mp hnd).1
      have hnd2 : bs.Nodup := (List.nodup_cons.mp hnd).2
      have hlen2 : bs.length = vs.length := by simpa using hlen
      have hnone : hashMapLookup (bs.zip vs) b = none := by
        refine hashMapLookup_eq_none_of_not_mem _ _ (fun hk => hb ?_)
        exact mem_of_mem_keys_zip bs vs b hk
      have hz : (b :: bs).zip (v :: vs) = (b, v) :: bs.zip vs := rfl
      have hhead :
          (hashMapLookup ((b :: bs).zip (v :: vs)) b).getD 0 = v := by
        rw [hz]
        simp [hashMapLookup, hnone]
      have htail :
          bs.map (fun name =>
              (hashMapLookup ((b :: bs).zip (v :: vs)) name).getD 0) =
            bs.map (fun name => (hashMapLookup (bs.zip vs) name).getD 0) := by
        refine listMapCongr bs _ _ (fun a ha => ?_)
        have hba : b ≠ a := fun hh => hb (hh ▸ ha)
        rw [hz]
        cases hl : hashMapLookup (bs.zip vs) a with
        | none => simp [hashMapLookup, hl, hba]
        | some w => simp [hashMapLookup, hl]
      calc newValues (b :: bs) (v :: vs) (b :: bs)
          = (hashMapLookup ((b :: bs).zip (v :: vs)) b).getD 0 ::
            bs.map (fun name =>
              (hashMapLookup ((b :: bs).zip (v :: vs)) name).getD 0) := by
            simp [newValues]
        _ = v :: bs.map (fun name =>
              (hashMapLookup (bs.zip vs) name).getD 0) := by rw [hhead, htail]
        _ = v :: newValues bs vs bs := by simp [newValues]
        _ = v :: vs := by rw [ih vs hnd2 hlen2]

theorem listPosition_of_get? :
    ∀ (bs : List String) (i : ℕ) (a : String), bs.Nodup → bs.get? i = some a →
      listPosition a bs = some i := by
  intro bs
  induction bs with
  | nil => intro i a _ h; simp at h
  | cons b bs ih =>
    intro i a hnd h
    cases i with
    | zero =>
      have ha : b = a := by simpa using h
      simp [listPosition, ha]
    | succ j =>
      have hj : bs.get? j = some a := by simpa using h
      have hmem : a ∈ bs := List.get?_mem hj
      have hb : b ∉ bs := (List.nodup_cons.mp hnd).1
      have hba : b ≠ a := fun hh => hb (hh ▸ hmem)
      simp [listPosition, hba, ih j a (List.nodup_cons.mp hnd).2 hj]

theorem migrate_self (node : ℕ) (nb : List String) (hnd : nb.Nodup) :
    ∀ (rest : List String) (idx : ℕ) (cs0 cs : ConnState),
      nb.drop idx = rest → migrate node rest idx nb cs0 cs = (cs, []) := by
  intro rest
  induction rest with
  | nil => intro idx cs0 cs _; rfl
  | cons name rest ih =>
    intro idx cs0 cs hdrop
    have hget : nb.get? idx = some name := by
      have h0 : (nb.drop idx).get? 0 = some name := by rw [hdrop]; rfl
      rwa [List.get?_drop, Nat.add_zero] at h0
    have hpos : listPosition name nb = some idx :=
      listPosition_of_get? nb idx name hnd hget
    have hdrop2 : nb.drop (idx + 1) = rest := by
      rw [← List.drop_drop, hdrop]
      rfl
    simp [migrate, hpos, ih (idx + 1) cs0 cs hdrop2]

theorem remotes_append (i : InPinId) (a b : ConnState) :
    remotes i (a ++ b) = remotes i a ++ remotes i b := by
  induction a with
  | nil => rfl
  | cons w a ih =>
    by_cases h : w.2 = i
    · simp [remotes, h, ih]
    · simp [remotes, h, ih]

theorem length_remotes_disconnectW (p : InPinId) (o : OutPinId) (i : InPinId) :
    ∀ cs : ConnState,
      (remotes p (disconnectW o i cs)).length ≤ (remotes p cs).length := by
  intro cs
  induction cs with
  | nil => exact Nat.le_refl 0
  | cons w cs ih =>
    by_cases hw : w = (o, i)
    · by_cases hp : w.2 = p
      · simp only [disconnectW, if_pos hw, remotes, if_pos hp]
        exact Nat.le_succ_of_le ih
      · simp only [disconnectW, if_pos hw, remotes, if_neg hp]
        exact ih
    · by_cases hp : w.2 = p
      · simp only [disconnectW, if_neg hw, remotes, if_pos hp, List.length_cons]
        exact Nat.succ_le_succ ih
      · simp only [disconnectW, if_neg hw, remotes, if_neg hp]
        exact ih

theorem mem_remotes_disconnectW (p : InPinId) (o : OutPinId) (i : InPinId)
    (x : OutPinId) :
    ∀ cs : ConnState, x ∈ remotes p (disconnectW o i cs) →
      x ∈ remotes p cs ∧ ¬(x = o ∧ i = p) := by
  intro cs
  induction cs with
  | nil => intro h; simp [remotes, disconnectW] at h
  | cons w cs ih =>
    intro h
    by_cases hw : w = (o, i)
    · rw [disconnectW, if_pos hw] at h
      obtain ⟨h1, h2⟩ := ih h
      refine ⟨?_, h2⟩
      by_cases hp : w.2 = p
      · rw [remotes, if_pos hp]; exact List.mem_cons_of_mem _ h1
      · rwa [remotes, if_neg hp]
    · rw [disconnectW, if_neg hw] at h
      by_cases hp : w.2 = p
      · rw [remotes, if_pos hp] at h
        rcases List.mem_cons.mp h with h1 | h1
        · subst h1
          refine ⟨by rw [remotes, if_pos hp]; exact List.mem_cons_self _ _, ?_⟩
          rintro ⟨rfl, rfl⟩
          exact hw (Prod.ext rfl hp)
        · obtain ⟨h2, h3⟩ := ih h1
          exact ⟨by rw [remotes, if_pos hp]; exact List.mem_cons_of_mem _ h2, h3⟩
      · rw [remotes, if_neg hp] at h
        obtain ⟨h2, h3⟩ := ih h
        exact ⟨by rw [remotes, if_neg hp]; exact h2, h3⟩

theorem remotes_fold_disconnect_nil (i : InPinId) :
    ∀ (R : List OutPinId) (cs : ConnState),
      (∀ x ∈ remotes i cs, x ∈ R) →
      remotes i (R.foldl (fun c rm => disconnectW rm i c) cs) = [] := by
  intro R
  induction R with
  | nil =>
    intro cs h
    exact List.eq_nil_iff_forall_not_mem.mpr
      (fun x hx => absurd (h x hx) (List.not_mem_nil x))
  | cons r R ih =>
    intro cs h
    rw [List.foldl_cons]
    refine ih (disconnectW r i cs) (fun x hx => ?_)
    obtain ⟨h1, h2⟩ := mem_remotes_disconnectW i r i x cs hx
    rcases List.mem_cons.mp (h x h1) with h3 | h3
    · exact absurd ⟨h3, rfl⟩ h2
    · exact h3

theorem length_remotes_fold_disconnect (p i : InPinId) :
    ∀ (R : List OutPinId) (cs : ConnState),
      (remotes p (R.foldl (fun c rm => disconnectW rm i c) cs)).length ≤
        (remotes p cs).length := by
  intro R
  induction R with
  | nil => intro cs; exact Nat.le_refl _
  | cons r R ih =>
    intro cs
    rw [List.foldl_cons]
    exact Nat.le_trans (ih (disconnectW r i cs)) (length_remotes_disconnectW p r i cs)

theorem mem_remotes_of_mem (o : OutPinId) (i : InPinId) :
    ∀ cs : ConnState, (o, i) ∈ cs → o ∈ remotes i cs := by
  intro cs
  induction cs with
  | nil => intro h; simp at h
  | cons w cs ih =>
    intro h
    rcases List.mem_cons.mp h with h1 | h1
    · rw [← h1, remotes, if_pos rfl]
      exact List.mem_cons_self _ _
    · by_cases hp : w.2 = i
      · rw [remotes, if_pos hp]; exact List.mem_cons_of_mem _ (ih h1)
      · rw [remotes, if_neg hp]; exact ih h1

theorem remotes_connectW_of_empty (o : OutPinId) (i : InPinId) (cs : ConnState)
    (h : remotes i cs = []) : remotes i (connectW o i cs) = [o] := by
  have hmem : (o, i) ∉ cs := fun hc => by
    have := mem_remotes_of_mem o i cs hc
    rw [h] at this
    simp at this
  rw [connectW, if_neg hmem, remotes_append, h, List.nil_append, remotes,
    if_pos rfl]
  rfl

theorem remotes_connectW_other (o : OutPinId) (i p : InPinId) (cs : ConnState)
    (h : p ≠ i) : remotes p (connectW o i cs) = remotes p cs := by
  by_cases hmem : (o, i) ∈ cs
  · rw [connectW, if_pos hmem]
  · rw [connectW, if_neg hmem, remotes_append]
    have : remotes p [(o, i)] = [] := by
      rw [remotes, if_neg (fun hh => h hh.symm)]
      rfl
    rw [this, List.append_nil]

/-- C1: the claim says that after editing the text of a node with bindings
`["a","b"]` (wired at input slots 1 and 2) to `"b+c"`, the wire of `b` moves
to input slot 1.  The code instead reattaches it to input 0 — the text input
slot — because the destination pin is built as `InPinId { input: new_idx }`
while old slots are computed as `idx + 1`: binding `b` has new index 0, so
its remote is connected to input 0.  This theorem evaluates the edit at the
claim's own example: slot 1's wire is dropped, and the remaining wire ends
on input 0, leaving the new slot 1 of `b` unconnected. -/
theorem C1_migration_moves_wire_to_text_slot :
    applyTextEdit 0
        ⟨"a+b", ["a", "b"], [10, 20],
          Expr.BinOp (Expr.Var "a") BinOp.add (Expr.Var "b")⟩
        [((1, 0), (0, 1)), ((2, 0), (0, 2))] "b+c" =
      (⟨"b+c", ["b", "c"], [20, 0],
          Expr.BinOp (Expr.Var "b") BinOp.add (Expr.Var "c")⟩,
        [((2, 0), (0, 0))],
        [Cmd.dropAll (0, 1), Cmd.disc (2, 0) (0, 2), Cmd.conn (2, 0) (0, 0)]) ∧
    remotes (0, 1) [((2, 0), (0, 0))] = [] ∧
    remotes (0, 0) [((2, 0), (0, 0))] = [(2, 0)] := by
  decide

/-- C2: the claim says the parser realises the two-tier grammar with
left-associative folding for every mix of the tiers, e.g. `"a-b*c-d"` parses
as `((a-(b*c))-d)`.  In the code, when a multiplicative operator follows an
additive one, `parse_binop` recurses on the whole remaining input, so
`"1-2*3-4"` parses as `1-((2*3)-4)` and evaluates to `-1`, where the grammar
of the claim mandates `((1-(2*3))-4) = -9`. -/
theorem C2_mixed_tier_parses_greedy_rhs :
    parseText "1-2*3-4" =
      some (Expr.BinOp (Expr.Val 1) BinOp.sub
        (Expr.BinOp (Expr.BinOp (Expr.Val 2) BinOp.mul (Expr.Val 3))
          BinOp.sub (Expr.Val 4))) ∧
    evalText "1-2*3-4" = some (-1) ∧
    evalText "1-2*3-4" ≠ some (-9) := by
  have hv : evalText "1-2*3-4" = some ((1 : ℚ) - (2 * 3 - 4)) := rfl
  refine ⟨rfl, ?_, ?_⟩ <;> rw [hv] <;> norm_num

/-- C3: parsing and evaluating with no variables bound reproduces exactly
the eight example results listed in the claim. -/
theorem C3_eval_examples :
    evalText "2+3*4" = some 14 ∧
    evalText "(2+3)*4" = some 20 ∧
    evalText "2*3+4" = some 10 ∧
    evalText "2-3-4" = some (-5) ∧
    evalText "8-3-2" = some 3 ∧
    evalText "8/4/2" = some 1 ∧
    evalText "-3+4" = some 1 ∧
    evalText "-(3+4)" = some (-7) := by
  have h1 : evalText "2+3*4" = some ((2 : ℚ) + 3 * 4) := rfl
  have h2 : evalText "(2+3)*4" = some (((2 : ℚ) + 3) * 4) := rfl
  have h3 : evalText "2*3+4" = some ((2 : ℚ) * 3 + 4) := rfl
  have h4 : evalText "2-3-4" = some ((2 : ℚ) - 3 - 4) := rfl
  have h5 : evalText "8-3-2" = some ((8 : ℚ) - 3 - 2) := rfl
  have h6 : evalText "8/4/2" = some ((8 : ℚ) / 4 / 2) := rfl
  have h7 : evalText "-3+4" = some (-(3 : ℚ) + 4) := rfl
  have h8 : evalText "-(3+4)" = some (-((3 : ℚ) + 4)) := rfl
  refine ⟨?_, ?_, ?_, ?_, ?_, ?_, ?_, ?_⟩
  · rw [h1]; norm_num
  · rw [h2]; norm_num
  · rw [h3]; norm_num
  · rw [h4]; norm_num
  · rw [h5]; norm_num
  · rw [h6]; norm_num
  · rw [h7]; norm_num
  · rw [h8]; norm_num

/-- C4: the claim says a decimal literal such as `"1.5"` is accepted as the
first (or only) token of an expression.  The parser rejects it: the
`LitFloat` branch of the top-level `Expr::parse` is commented out in the
source (lines 629-636), while the same literal is accepted after a unary or
binary operator — an internal inconsistency of the parser.  This theorem
evaluates the parser at the failing input and at the two accepting
positions. -/
theorem C4_leading_float_literal_rejected :
    parseText "1.5" = none ∧
    parseText "-1.5" =
      some (Expr.UnOp UnOp.neg (Expr.Val ((1 : ℚ) + 5 / 10 ^ 1))) ∧
    parseText "2+1.5" =
      some (Expr.BinOp (Expr.Val 2) BinOp.add (Expr.Val ((1 : ℚ) + 5 / 10 ^ 1))) ∧
    (1 : ℚ) + 5 / 10 ^ 1 = 3 / 2 := by
  refine ⟨rfl, rfl, rfl, by norm_num⟩

/-- C5 counterexample: the claim says every parse failure is surfaced to the
caller of the text-edit operation as a typed error of exactly one of four
kinds, with `""` being `EmptyInput` and `"1 2"` being `TrailingInput`.  The
only caller in the repository observes the parse through `if let Ok(..)`,
which carries a single undifferentiated failure: no function of the surfaced
result can assign `""` and `"1 2"` the two distinct kinds the claim
requires, because the surfaced results are identical. -/
theorem C5_error_kinds_not_surfaced :
    parseText "" = none ∧ parseText "1 2" = none ∧
    ¬ ∃ classify : Option Expr → ParseErrorKind,
        classify (parseText "") = ParseErrorKind.emptyInput ∧
        classify (parseText "1 2") = ParseErrorKind.trailingInput := by
  refine ⟨by decide, by decide, ?_⟩
  rintro ⟨f, h1, h2⟩
  have e1 : parseText "" = none := by decide
  have e2 : parseText "1 2" = none := by decide
  rw [e1] at h1
  rw [e2] at h2
  have h3 : ParseErrorKind.emptyInput = ParseErrorKind.trailingInput :=
    h1.symm.trans h2
  exact ParseErrorKind.noConfusion h3

/-- C5 (amended): every parse failure is recoverable and never a crash — the
text-edit operation is total and, on a failing parse, returns the prior
semantic state with only the text updated and issues no connection
commands; the failure however reaches the edit operation only as the
absence of a new tree, not as a typed four-kind error. -/
theorem C5_parse_failure_recoverable (node : ℕ) (en : ExprNode)
    (cs : ConnState) (t : String) :
    (∃ e, parseText t = some e ∧ (applyTextEdit node en cs t).1.expr = e ∧
      (applyTextEdit node en cs t).1.text = t) ∨
    (parseText t = none ∧
      applyTextEdit node en cs t = ({ en with text := t }, cs, [])) := by
  cases h : parseText t with
  | none => exact Or.inr ⟨rfl, by simp [applyTextEdit, h]⟩
  | some e =>
    refine Or.inl ⟨e, rfl, ?_, ?_⟩ <;> simp [applyTextEdit, h]

/-- C6: a text edit whose parse fails leaves the node's compiled AST,
bindings, values, evaluated output and the connection store exactly as they
were, and issues zero connection commands; only the text buffer changes. -/
theorem C6_parse_failure_preserves_state (node : ℕ) (en : ExprNode)
    (cs : ConnState) (t : String) (h : parseText t = none) :
    applyTextEdit node en cs t = ({ en with text := t }, cs, []) ∧
    (applyTextEdit node en cs t).1.eval = en.eval := by
  refine ⟨by simp [applyTextEdit, h], ?_⟩
  simp [applyTextEdit, h, ExprNode.eval]

/-- C6 witness: the failing edit `"2+"` on a concrete node with one binding
and one wire changes nothing but the text. -/
theorem C6_witness :
    parseText "2+" = none ∧
    (applyTextEdit 0
        ⟨"1+x", ["x"], [2], Expr.BinOp (Expr.Val 1) BinOp.add (Expr.Var "x")⟩
        [((3, 0), (0, 1))] "2+" =
      ({ (⟨"1+x", ["x"], [2],
            Expr.BinOp (Expr.Val 1) BinOp.add (Expr.Var "x")⟩ : ExprNode)
          with text := "2+" }, [((3, 0), (0, 1))], []) ∧
    (applyTextEdit 0
        ⟨"1+x", ["x"], [2], Expr.BinOp (Expr.Val 1) BinOp.add (Expr.Var "x")⟩
        [((3, 0), (0, 1))] "2+").1.eval =
      (⟨"1+x", ["x"], [2],
        Expr.BinOp (Expr.Val 1) BinOp.add (Expr.Var "x")⟩ : ExprNode).eval) :=
  ⟨by decide, C6_parse_failure_preserves_state 0 _ _ "2+" (by decide)⟩

/-- C9: applying the same text twice in succession is idempotent — the
second application returns the node state and connection store produced by
the first application unchanged, and issues no connection commands. -/
theorem C9_idempotent (node : ℕ) (en : ExprNode) (cs : ConnState) (t : String) :
    applyTextEdit node (applyTextEdit node en cs t).1
        (applyTextEdit node en cs t).2.1 t =
      ((applyTextEdit node en cs t).1, (applyTextEdit node en cs t).2.1, []) := by
  cases h : parseText t with
  | none => simp [applyTextEdit, h]
  | some e =>
    have hnb : (e.extend_bindings []).Nodup := nodup_extend_bindings e
    have hlen : (e.extend_bindings []).length =
        (newValues en.bindings en.values (e.extend_bindings [])).length := by
      simp [newValues]
    have hnv := newValues_self (e.extend_bindings [])
      (newValues en.bindings en.values (e.extend_bindings [])) hnb hlen
    have hmig := migrate_self node (e.extend_bindings []) hnb
      (e.extend_bindings []) 0
      (migrate node en.bindings 0 (e.extend_bindings []) cs cs).1
      (migrate node en.bindings 0 (e.extend_bindings []) cs cs).1
      rfl
    simp only [applyTextEdit, h]
    rw [hnv, hmig]

/-- C7: for every parsed tree and old snapshot with the snapshot invariant
(no duplicate names, equal lengths), the reconciler's new binding list is
the first-occurrence deduplication of the tree's pre-order variable
sequence, and each new value is the old value bound to that name if the name
existed in the old snapshot, else `0`. -/
theorem C7_reconciler_bindings_and_values (e : Expr) (ob : List String)
    (ov : List ℚ) (h1 : ob.Nodup) (h2 : ob.length = ov.length) :
    e.extend_bindings [] = firstOccur (varList e) ∧
    newValues ob ov (e.extend_bindings []) =
      (e.extend_bindings []).map
        (fun n => (assocFirst (ob.zip ov) n).getD 0) := by
  constructor
  · rw [extend_bindings_eq_foldl]
    rfl
  · have hkeys : ((ob.zip ov).map Prod.fst).Nodup := by
      rw [List.map_fst_zip ob ov (le_of_eq h2)]
      exact h1
    unfold newValues
    exact listMapCongr _ _ _
      (fun n _ => by rw [hashMapLookup_eq_assocFirst _ hkeys n])

/-- C7 witness: the tree of `"b+a"` against the old snapshot
`(["a"], [5])` yields bindings `["b","a"]` with values `[0, 5]`. -/
theorem C7_witness :
    (["a"] : List String).Nodup ∧
    (["a"] : List String).length = [(5 : ℚ)].length ∧
    ((Expr.BinOp (Expr.Var "b") BinOp.add (Expr.Var "a")).extend_bindings [] =
      firstOccur (varList (Expr.BinOp (Expr.Var "b") BinOp.add (Expr.Var "a"))) ∧
    newValues ["a"] [5]
        ((Expr.BinOp (Expr.Var "b") BinOp.add (Expr.Var "a")).extend_bindings []) =
      ((Expr.BinOp (Expr.Var "b") BinOp.add (Expr.Var "a")).extend_bindings []).map
        (fun n => (assocFirst ((["a"] : List String).zip [(5 : ℚ)]) n).getD 0)) :=
  ⟨by decide, by decide,
    C7_reconciler_bindings_and_values _ _ _ (by decide) (by decide)⟩

theorem listPosition_of_mem (n : String) :
    ∀ bs : List String, n ∈ bs →
      ∃ i, listPosition n bs = some i ∧ i < bs.length := by
  intro bs
  induction bs with
  | nil => intro h; simp at h
  | cons b bs ih =>
    intro h
    by_cases hb : b = n
    · exact ⟨0, by simp [listPosition, hb], by simp⟩
    · have hn : n ∈ bs := by
        rcases List.mem_cons.mp h with h1 | h1
        · exact absurd h1.symm hb
        · exact h1
      obtain ⟨i, hi, hlt⟩ := ih hn
      exact ⟨i + 1, by simp [listPosition, hb, hi],
        by simpa using Nat.succ_lt_succ hlt⟩

/-- C8: for every tree whose variables all occur in the binding list, with
as many values as bindings, evaluation is total — the name-to-index lookup
and the index into the value list both succeed, so the panic branches are
unreachable and a value is returned. -/
theorem C8_eval_total (e : Expr) (bs : List String) (vs : List ℚ)
    (hmem : ∀ n ∈ varList e, n ∈ bs) (hlen : vs.length = bs.length) :
    ∃ q, e.eval bs vs = some q := by
  induction e with
  | Var name =>
    obtain ⟨i, hi, hlt⟩ :=
      listPosition_of_mem name bs (hmem name (by simp [varList]))
    have hq : ∃ q, vs.get? i = some q := by
      have hiv : i < vs.length := hlen ▸ hlt
      exact ⟨vs.get ⟨i, hiv⟩, List.get?_eq_get hiv⟩
    obtain ⟨q, hq⟩ := hq
    rw [List.get?_eq_getElem?] at hq
    exact ⟨q, by simp [Expr.eval, hi, hq]⟩
  | Val v => exact ⟨v, rfl⟩
  | UnOp op e ih =>
    obtain ⟨q, hq⟩ := ih (fun n hn => hmem n (by simpa [varList] using hn))
    cases op with
    | pos => exact ⟨q, by simpa [Expr.eval] using hq⟩
    | neg => exact ⟨-q, by simp [Expr.eval, hq]⟩
  | BinOp l op r ihl ihr =>
    obtain ⟨a, ha⟩ := ihl (fun n hn => hmem n (by simp [varList]; exact Or.inl hn))
    obtain ⟨b, hb⟩ := ihr (fun n hn => hmem n (by simp [varList]; exact Or.inr hn))
    cases op with
    | add => exact ⟨a + b, by simp [Expr.eval, ha, hb]⟩
    | sub => exact ⟨a - b, by simp [Expr.eval, ha, hb]⟩
    | mul => exact ⟨a * b, by simp [Expr.eval, ha, hb]⟩
    | div => exact ⟨a / b, by simp [Expr.eval, ha, hb]⟩

/-- C8 witness: evaluating `x/y` with bindings `["x","y"]` and values
`[1, 2]` succeeds. -/
theorem C8_witness :
    (∀ n ∈ varList (Expr.BinOp (Expr.Var "x") BinOp.div (Expr.Var "y")),
      n ∈ (["x", "y"] : List String)) ∧
    [(1 : ℚ), 2].length = (["x", "y"] : List String).length ∧
    ∃ q, (Expr.BinOp (Expr.Var "x") BinOp.div (Expr.Var "y")).eval
        ["x", "y"] [1, 2] = some q :=
  ⟨by decide, by decide, C8_eval_total _ _ _ (by decide) (by decide)⟩

/-- C10: the viewer's connect operation attaches a wire only when the pin
kinds match — a `Named` (string) output only to an expression node's input
slot 0, an expression (number) output only to input slots at least 1 — and
leaves the store unchanged on a kind mismatch; on a match it first
disconnects every remote feeding the destination slot, so when every input
slot had at most one upstream wire before, every input slot has at most one
upstream wire afterwards, and the destination slot holds exactly the new
wire.  The destination is an expression node: a `Named` node has zero input
pins, so the graph UI can produce no destination pin on one (the source
marks that case `unreachable!`). -/
theorem C10_connect_validates_and_keeps_unique (fromK : NodeK) (en : ExprNode)
    (fromId : OutPinId) (toId : InPinId) (cs : ConnState)
    (hinv : ∀ p, (remotes p cs).length ≤ 1) :
    ∃ cs', viewerConnect fromK (NodeK.exprN en) fromId toId cs = some cs' ∧
      ((((∃ s, fromK = NodeK.named s) ∧ toId.2 ≠ 0) ∨
        ((∃ en2, fromK = NodeK.exprN en2) ∧ toId.2 = 0)) → cs' = cs) ∧
      ((((∃ s, fromK = NodeK.named s) ∧ toId.2 = 0) ∨
        ((∃ en2, fromK = NodeK.exprN en2) ∧ toId.2 ≠ 0)) →
        remotes toId cs' = [fromId]) ∧
      (∀ p, (remotes p cs').length ≤ 1) := by
  have hmid : remotes toId
      ((remotes toId cs).foldl (fun c rm => disconnectW rm toId c) cs) = [] :=
    remotes_fold_disconnect_nil toId (remotes toId cs) cs (fun x hx => hx)
  have hnew : remotes toId (connectW fromId toId
      ((remotes toId cs).foldl (fun c rm => disconnectW rm toId c) cs)) = [fromId] :=
    remotes_connectW_of_empty fromId toId _ hmid
  have hbound : ∀ p, (remotes p (connectW fromId toId
      ((remotes toId cs).foldl (fun c rm => disconnectW rm toId c) cs))).length ≤ 1 := by
    intro p
    by_cases hp : p = toId
    · rw [hp, hnew]
      exact Nat.le_refl 1
    · rw [remotes_connectW_other fromId toId p _ hp]
      exact Nat.le_trans
        (length_remotes_fold_disconnect p toId (remotes toId cs) cs) (hinv p)
  cases fromK with
  | named s =>
    by_cases h0 : toId.2 = 0
    · refine ⟨_, by simp [viewerConnect, h0], ?_, fun _ => hnew, hbound⟩
      rintro (⟨_, hne⟩ | ⟨⟨en2, heq⟩, _⟩)
      · exact absurd h0 hne
      · exact NodeK.noConfusion heq
    · refine ⟨cs, by simp [viewerConnect, h0], fun _ => rfl, ?_, hinv⟩
      rintro (⟨_, h00⟩ | ⟨⟨en2, heq⟩, _⟩)
      · exact absurd h00 h0
      · exact NodeK.noConfusion heq
  | exprN en2 =>
    by_cases h0 : toId.2 = 0
    · refine ⟨cs, by simp [viewerConnect, h0], fun _ => rfl, ?_, hinv⟩
      rintro (⟨⟨s, heq⟩, _⟩ | ⟨_, hne⟩)
      · exact NodeK.noConfusion heq
      · exact absurd h0 hne
    · refine ⟨_, by simp [viewerConnect, h0], ?_, fun _ => hnew, hbound⟩
      rintro (⟨⟨s, heq⟩, _⟩ | ⟨_, h00⟩)
      · exact NodeK.noConfusion heq
      · exact absurd h00 h0

/-- C10 witness: connecting a string output to input slot 0 of an empty
store, which trivially satisfies the at-most-one-wire invariant. -/
theorem C10_witness :
    (∀ p : InPinId, (remotes p ([] : ConnState)).length ≤ 1) ∧
    (∃ cs', viewerConnect (NodeK.named "s")
          (NodeK.exprN ⟨"0", [], [], Expr.Val 0⟩) (1, 0) (0, 0) [] = some cs' ∧
      ((((∃ s, NodeK.named "s" = NodeK.named s) ∧ ((0, 0) : InPinId).2 ≠ 0) ∨
        ((∃ en2, NodeK.named "s" = NodeK.exprN en2) ∧ ((0, 0) : InPinId).2 = 0)) →
        cs' = []) ∧
      ((((∃ s, NodeK.named "s" = NodeK.named s) ∧ ((0, 0) : InPinId).2 = 0) ∨
        ((∃ en2, NodeK.named "s" = NodeK.exprN en2) ∧ ((0, 0) : InPinId).2 ≠ 0)) →
        remotes (0, 0) cs' = [(1, 0)]) ∧
      (∀ p, (remotes p cs').length ≤ 1)) :=
  ⟨fun _ => Nat.zero_le 1,
    C10_connect_validates_and_keeps_unique (NodeK.named "s")
      ⟨"0", [], [], Expr.Val 0⟩ (1, 0) (0, 0) [] (fun _ => Nat.zero_le 1)⟩
